import Mathlib

/-!
Verification of `gold_bolt.c` (NPEA00385 gold-bolt helper hook).

The C file installs a hook on a gold-bolt moby's update function.  We give a
shallow embedding: the `Moby` struct becomes a Lean structure (pointer-valued
fields become addresses modelled as `Int`, `float` fields keep their raw
32-bit pattern as `Nat`), the two fixed host-memory locations
(`n_gold_bolts_collected` at 0x00aff000 and the `collected_bolt` byte table at
0x00aff004) become a `HostMem` record, and `_start` becomes a pure function
that also returns the trace of calls made to the original update function at
0x1d9d48.  The C `int` counter is modelled as `Int` (signed overflow is
undefined behaviour in the source, so no wraparound is modelled); the byte
table is a map from `Int` (the C `int` index, no bounds check in the source)
to `Nat` byte values.
-/

/-- 4-component vector from the host ABI; the hook never reads it, so the
components are kept as raw 32-bit patterns. -/
structure vec4 where
  x : Nat
  y : Nat
  z : Nat
  w : Nat
deriving DecidableEq, Repr

/-- Colour word from the host ABI (never read by the hook). -/
abbrev color := Nat

/-- The per-instance data behind the moby's `pvars` pointer. -/
structure GoldBoltVars where
  number : Int
deriving DecidableEq, Repr

/-- The moby struct overlay from `gold_bolt.c`, field for field.  Pointer
fields hold the pointed-to address as an integer, except `pvars`, where the
hook dereferences the pointer: there we embed the pointed-to
`GoldBoltVars` record directly. -/
structure Moby where
  coll_pos : vec4
  pos : vec4
  state : Int
  texture_mode : Int
  opacity : Nat
  model : Int
  parent : Int
  scale : Nat
  unk_30 : Int
  visible : Int
  render_distance : Int
  unk_34 : Int
  color : color
  shading : Nat
  rot : vec4
  prev_anim_frame : Int
  curr_anim_frame : Int
  updateID : Int
  asdf : Nat
  pvars : GoldBoltVars
  asdf2 : Nat
  type : Nat
  asdf3 : Nat
deriving DecidableEq, Repr

/-- The two fixed host-memory locations the hook mutates:
`n_gold_bolts_collected` (the `int` at 0x00aff000) and `collected_bolt`
(the byte table at 0x00aff004, indexed by the C `int` index). -/
structure HostMem where
  n_gold_bolts_collected : Int
  collected_bolt : Int → Nat

/-- The body of `_start` before the tail call: reads `vars->number` through
`pvars`, branches on `self->state`, and updates the host memory exactly as
lines 66-73 of `gold_bolt.c` do.  The moby is threaded through and returned
because the C function could write to `*self`; the source performs no such
write, so the returned moby is the input one. -/
def hookLogic (self : Moby) (mem : HostMem) : Moby × HostMem :=
  let vars := self.pvars
  if self.state = 0 then
    (self, { mem with collected_bolt := Function.update mem.collected_bolt vars.number 0 })
  else if self.state = 2 then
    if mem.collected_bolt vars.number = 0 then
      (self, { mem with
                n_gold_bolts_collected := mem.n_gold_bolts_collected + 1,
                collected_bolt := Function.update mem.collected_bolt vars.number 1 })
    else (self, mem)
  else (self, mem)

/-- The hook entry point `_start`: runs `hookLogic`, then unconditionally
tail-calls the original `gold_bolt_update_func`.  The original function is
external code at 0x1d9d48, so it is a parameter `host`; the second component
records every call made to it, as the pair (argument passed, host memory at
the moment of the call). -/
def _start (host : Moby → HostMem → HostMem) (self : Moby) (mem : HostMem) :
    HostMem × List (Moby × HostMem) :=
  let r := hookLogic self mem
  (host r.1 r.2, [(r.1, r.2)])

/-- Folding `hookLogic` over a list of invocations (each list element is the
moby passed to one invocation of the hook). -/
def runSeq (l : List Moby) (mem : HostMem) : HostMem :=
  l.foldl (fun m mby => (hookLogic mby m).2) mem

/-- A throwaway moby whose unused host-ABI fields are zeroed, for concrete
test inputs: state `st`, collectible index `idx`. -/
def mkMoby (st idx : Int) : Moby :=
  { coll_pos := ⟨0, 0, 0, 0⟩, pos := ⟨0, 0, 0, 0⟩, state := st,
    texture_mode := 0, opacity := 0, model := 0, parent := 0, scale := 0,
    unk_30 := 0, visible := 0, render_distance := 0, unk_34 := 0, color := 0,
    shading := 0, rot := ⟨0, 0, 0, 0⟩, prev_anim_frame := 0,
    curr_anim_frame := 0, updateID := 0, asdf := 0, pvars := ⟨idx⟩,
    asdf2 := 0, type := 0, asdf3 := 0 }

example :
    (runSeq [mkMoby 2 5, mkMoby 2 5, mkMoby 0 5, mkMoby 2 5]
      ⟨0, fun _ => 0⟩).n_gold_bolts_collected = 2 := by
  decide

/-! ### Helper lemmas shared by several results -/

/-- `_start`'s body never assigns through `self`, so the moby component of
`hookLogic` is the input moby in every branch. -/
lemma hookLogic_fst (m : Moby) (mem : HostMem) : (hookLogic m mem).1 = m := by
  unfold hookLogic
  dsimp only
  split_ifs <;> rfl

/-- One invocation changes the counter by 0 or by exactly 1. -/
lemma counter_step (m : Moby) (mem : HostMem) :
    (hookLogic m mem).2.n_gold_bolts_collected = mem.n_gold_bolts_collected ∨
    (hookLogic m mem).2.n_gold_bolts_collected = mem.n_gold_bolts_collected + 1 := by
  unfold hookLogic
  dsimp only
  split_ifs <;> simp

/-- `runSeq` on a cons peels one invocation off the front. -/
lemma runSeq_cons (m : Moby) (l : List Moby) (mem : HostMem) :
    runSeq (m :: l) mem = runSeq l (hookLogic m mem).2 := rfl

/-- `runSeq` on an appended final invocation peels it off the back. -/
lemma runSeq_append_singleton (l : List Moby) (m : Moby) (mem : HostMem) :
    runSeq (l ++ [m]) mem = (hookLogic m (runSeq l mem)).2 := by
  simp [runSeq, List.foldl_append]

/-! ### The claim theorems -/

/-- C1: with `state == 2`, if `collected_bolt[index] == 0` the hook adds 1 to
`n_gold_bolts_collected` and sets the flag to 1; if the flag is nonzero it
leaves the whole host memory unchanged. -/
theorem hookLogic_state2 (m : Moby) (mem : HostMem) (h : m.state = 2) :
    (mem.collected_bolt m.pvars.number = 0 →
      (hookLogic m mem).2.n_gold_bolts_collected = mem.n_gold_bolts_collected + 1 ∧
      (hookLogic m mem).2.collected_bolt m.pvars.number = 1) ∧
    (mem.collected_bolt m.pvars.number ≠ 0 → (hookLogic m mem).2 = mem) := by
  constructor
  · intro hflag
    simp [hookLogic, h, hflag]
  · intro hflag
    simp [hookLogic, h, hflag]

theorem hookLogic_state2_witness :
    (({ n_gold_bolts_collected := 0, collected_bolt := fun _ => 0 } : HostMem).collected_bolt
        (mkMoby 2 5).pvars.number = 0 →
      (hookLogic (mkMoby 2 5)
          { n_gold_bolts_collected := 0, collected_bolt := fun _ => 0 }).2.n_gold_bolts_collected =
        ({ n_gold_bolts_collected := 0, collected_bolt := fun _ => 0 } :
          HostMem).n_gold_bolts_collected + 1 ∧
      (hookLogic (mkMoby 2 5)
          { n_gold_bolts_collected := 0, collected_bolt := fun _ => 0 }).2.collected_bolt
        (mkMoby 2 5).pvars.number = 1) ∧
    (({ n_gold_bolts_collected := 0, collected_bolt := fun _ => 0 } : HostMem).collected_bolt
        (mkMoby 2 5).pvars.number ≠ 0 →
      (hookLogic (mkMoby 2 5) { n_gold_bolts_collected := 0, collected_bolt := fun _ => 0 }).2 =
        { n_gold_bolts_collected := 0, collected_bolt := fun _ => 0 }) :=
  hookLogic_state2 (mkMoby 2 5) { n_gold_bolts_collected := 0, collected_bolt := fun _ => 0 }
    (by decide)

/-- C4: with `state == 0`, the hook clears `collected_bolt[index]` and leaves
the counter unchanged. -/
theorem hookLogic_state0 (m : Moby) (mem : HostMem) (h : m.state = 0) :
    (hookLogic m mem).2.collected_bolt m.pvars.number = 0 ∧
    (hookLogic m mem).2.n_gold_bolts_collected = mem.n_gold_bolts_collected := by
  simp [hookLogic, h]

theorem hookLogic_state0_witness :
    (hookLogic (mkMoby 0 5)
        { n_gold_bolts_collected := 1, collected_bolt := fun _ => 1 }).2.collected_bolt
      (mkMoby 0 5).pvars.number = 0 ∧
    (hookLogic (mkMoby 0 5)
        { n_gold_bolts_collected := 1, collected_bolt := fun _ => 1 }).2.n_gold_bolts_collected =
      ({ n_gold_bolts_collected := 1, collected_bolt := fun _ => 1 } :
        HostMem).n_gold_bolts_collected :=
  hookLogic_state0 (mkMoby 0 5) { n_gold_bolts_collected := 1, collected_bolt := fun _ => 1 }
    (by decide)

/-- C5: for a state other than 0 and 2 the hook's own logic leaves the host
memory untouched, and the delegation to the original handler still happens
(exactly one call, with this moby and the unchanged memory). -/
theorem hookLogic_passthrough (m : Moby) (mem : HostMem)
    (h0 : m.state ≠ 0) (h2 : m.state ≠ 2) :
    (hookLogic m mem).2 = mem ∧
    ∀ host : Moby → HostMem → HostMem, (_start host m mem).2 = [(m, mem)] := by
  have hlogic : hookLogic m mem = (m, mem) := by
    simp [hookLogic, h0, h2]
  exact ⟨by rw [hlogic], fun host => by simp [_start, hlogic]⟩

theorem hookLogic_passthrough_witness :
    (hookLogic (mkMoby 7 5) { n_gold_bolts_collected := 3, collected_bolt := fun _ => 0 }).2 =
      { n_gold_bolts_collected := 3, collected_bolt := fun _ => 0 } ∧
    ∀ host : Moby → HostMem → HostMem,
      (_start host (mkMoby 7 5)
          { n_gold_bolts_collected := 3, collected_bolt := fun _ => 0 }).2 =
        [(mkMoby 7 5, { n_gold_bolts_collected := 3, collected_bolt := fun _ => 0 })] :=
  hookLogic_passthrough (mkMoby 7 5)
    { n_gold_bolts_collected := 3, collected_bolt := fun _ => 0 } (by decide) (by decide)

/-- C6: every invocation of `_start` calls the original update function
exactly once, with the same moby it received, at the point where the hook's
own counter/flag updates are already applied; the final memory is the
handler's result on that post-logic memory. -/
theorem start_delegates (host : Moby → HostMem → HostMem) (m : Moby) (mem : HostMem) :
    (_start host m mem).2 = [(m, (hookLogic m mem).2)] ∧
    (_start host m mem).1 = host m (hookLogic m mem).2 := by
  unfold _start
  dsimp only
  rw [hookLogic_fst]
  exact ⟨rfl, rfl⟩

/-- C8: the hook's own logic never writes to the moby record: every field of
the returned moby equals the corresponding input field. -/
theorem hookLogic_preserves_moby (m : Moby) (mem : HostMem) :
    (hookLogic m mem).1 = m ∧
    (hookLogic m mem).1.state = m.state ∧
    (hookLogic m mem).1.pvars = m.pvars ∧
    (hookLogic m mem).1.pos = m.pos := by
  rw [hookLogic_fst]
  exact ⟨rfl, rfl, rfl, rfl⟩

/-- C9: an invocation with index `m.pvars.number` leaves every other index's
flag byte unchanged, whatever branch runs. -/
theorem hookLogic_frame_other_index (m : Moby) (mem : HostMem) (j : Int)
    (h : j ≠ m.pvars.number) :
    (hookLogic m mem).2.collected_bolt j = mem.collected_bolt j := by
  unfold hookLogic
  dsimp only
  split_ifs <;> simp [Function.update_noteq h]

theorem hookLogic_frame_other_index_witness :
    (hookLogic (mkMoby 2 5)
        { n_gold_bolts_collected := 0, collected_bolt := fun _ => 0 }).2.collected_bolt 4 =
      ({ n_gold_bolts_collected := 0, collected_bolt := fun _ => 0 } :
        HostMem).collected_bolt 4 :=
  hookLogic_frame_other_index (mkMoby 2 5)
    { n_gold_bolts_collected := 0, collected_bolt := fun _ => 0 } 4 (by decide)

/-- C10: a single invocation changes the counter by 0 or by exactly 1 (never
decreases it), so over any sequence of invocations the counter is monotone
non-decreasing. -/
theorem counter_monotone :
    (∀ (m : Moby) (mem : HostMem),
      (hookLogic m mem).2.n_gold_bolts_collected = mem.n_gold_bolts_collected ∨
      (hookLogic m mem).2.n_gold_bolts_collected = mem.n_gold_bolts_collected + 1) ∧
    (∀ (l : List Moby) (mem : HostMem),
      mem.n_gold_bolts_collected ≤ (runSeq l mem).n_gold_bolts_collected) := by
  refine ⟨counter_step, ?_⟩
  intro l
  induction l with
  | nil => intro mem; exact le_refl _
  | cons m l ih =>
    intro mem
    rw [runSeq_cons]
    rcases counter_step m mem with h | h
    · rw [← h]; exact ih _
    · calc mem.n_gold_bolts_collected
          ≤ (hookLogic m mem).2.n_gold_bolts_collected := by omega
        _ ≤ (runSeq l (hookLogic m mem).2).n_gold_bolts_collected := ih _

/-- C3: from any memory where index `i` is marked collected, a reset
invocation (`state == 0`) followed by a collect invocation (`state == 2`) for
the same index adds exactly 1 to the counter. -/
theorem reset_then_collect (m₁ m₂ : Moby) (mem : HostMem) (i : Int)
    (hs₁ : m₁.state = 0) (hn₁ : m₁.pvars.number = i)
    (hs₂ : m₂.state = 2) (hn₂ : m₂.pvars.number = i)
    (hflag : mem.collected_bolt i = 1) :
    (hookLogic m₂ (hookLogic m₁ mem).2).2.n_gold_bolts_collected =
      mem.n_gold_bolts_collected + 1 := by
  simp [hookLogic, hs₁, hs₂, hn₁, hn₂]

theorem reset_then_collect_witness :
    (hookLogic (mkMoby 2 5)
        (hookLogic (mkMoby 0 5)
          { n_gold_bolts_collected := 1, collected_bolt := fun _ => 1 }).2).2.n_gold_bolts_collected =
      ({ n_gold_bolts_collected := 1, collected_bolt := fun _ => 1 } :
        HostMem).n_gold_bolts_collected + 1 :=
  reset_then_collect (mkMoby 0 5) (mkMoby 2 5)
    { n_gold_bolts_collected := 1, collected_bolt := fun _ => 1 } 5
    (by decide) (by decide) (by decide) (by decide) (by decide)

/-! ### C2: repeated collection -/

/-- If index `i` is already flagged, a run of collect invocations for `i`
changes nothing at all. -/
lemma runSeq_collect_noop (l : List Moby) (i : Int) (mem : HostMem)
    (hall : ∀ m ∈ l, m.state = 2 ∧ m.pvars.number = i)
    (hflag : mem.collected_bolt i ≠ 0) :
    runSeq l mem = mem := by
  induction l with
  | nil => rfl
  | cons m l ih =>
    obtain ⟨hs, hn⟩ := hall m (List.mem_cons_self m l)
    have hstep : (hookLogic m mem).2 = mem := by
      simp [hookLogic, hs, hn, hflag]
    rw [runSeq_cons, hstep]
    exact ih fun m' hm' => hall m' (List.mem_cons_of_mem _ hm')

/-- C2 counterexample: starting from a memory whose flag for index 5 is
already 1, two collect invocations for index 5 do NOT raise the counter by 1
(they raise it by 0), refuting the claim's "for every starting shared
state". -/
theorem repeated_collect_cex :
    (runSeq [mkMoby 2 5, mkMoby 2 5]
        { n_gold_bolts_collected := 0,
          collected_bolt := Function.update (fun _ => 0) 5 1 }).n_gold_bolts_collected ≠
      ({ n_gold_bolts_collected := 0,
          collected_bolt := Function.update (fun _ => 0) 5 1 } :
        HostMem).n_gold_bolts_collected + 1 := by
  decide

/-- C2 (amended): a nonempty run of collect invocations (`state == 2`) for
one index raises the counter by exactly what a single such invocation would:
by 1 when the flag for that index starts at 0, and by 0 when it starts
nonzero. -/
theorem repeat_collect_total (l : List Moby) (i : Int) (mem : HostMem)
    (hne : l ≠ [])
    (hall : ∀ m ∈ l, m.state = 2 ∧ m.pvars.number = i) :
    (runSeq l mem).n_gold_bolts_collected =
      mem.n_gold_bolts_collected + (if mem.collected_bolt i = 0 then 1 else 0) := by
  cases l with
  | nil => exact absurd rfl hne
  | cons m rest =>
    obtain ⟨hs, hn⟩ := hall m (List.mem_cons_self m rest)
    have hrest : ∀ m' ∈ rest, m'.state = 2 ∧ m'.pvars.number = i :=
      fun m' hm' => hall m' (List.mem_cons_of_mem _ hm')
    rw [runSeq_cons]
    by_cases hflag : mem.collected_bolt i = 0
    · have hstep : (hookLogic m mem).2 =
          { n_gold_bolts_collected := mem.n_gold_bolts_collected + 1,
            collected_bolt := Function.update mem.collected_bolt i 1 } := by
        simp [hookLogic, hs, hn, hflag]
      rw [hstep, runSeq_collect_noop rest i _ hrest (by simp)]
      simp [hflag]
    · have hstep : (hookLogic m mem).2 = mem := by
        simp [hookLogic, hs, hn, hflag]
      rw [hstep, runSeq_collect_noop rest i mem hrest hflag]
      simp [hflag]

theorem repeat_collect_total_witness :
    (runSeq [mkMoby 2 5, mkMoby 2 5]
        { n_gold_bolts_collected := 0, collected_bolt := fun _ => 0 }).n_gold_bolts_collected =
      ({ n_gold_bolts_collected := 0, collected_bolt := fun _ => 0 } :
          HostMem).n_gold_bolts_collected +
        (if ({ n_gold_bolts_collected := 0, collected_bolt := fun _ => 0 } :
            HostMem).collected_bolt 5 = 0 then 1 else 0) :=
  repeat_collect_total [mkMoby 2 5, mkMoby 2 5] 5
    { n_gold_bolts_collected := 0, collected_bolt := fun _ => 0 }
    (by decide) (by decide)

/-! ### C7: full characterisation of a flag byte over any invocation sequence -/

/-- The claim's condition on a sequence: it contains a collect invocation
(`state == 2`) for index `i` after which no reset invocation (`state == 0`)
for index `i` occurs. -/
def countedCond (i : Int) (l : List Moby) : Prop :=
  ∃ l₁ m l₂, l = l₁ ++ m :: l₂ ∧ m.pvars.number = i ∧ m.state = 2 ∧
    ∀ m' ∈ l₂, m'.pvars.number = i → m'.state ≠ 0

/-- Splitting a decomposition of `l ++ [m]`: the distinguished element is
either the final `m`, or it lies in `l` and `m` stays in the tail. -/
lemma append_singleton_decomp {α : Type*} {l l₁ l₂ : List α} {m m' : α}
    (h : l ++ [m] = l₁ ++ m' :: l₂) :
    (l₁ = l ∧ m' = m ∧ l₂ = []) ∨ ∃ l₂', l₂ = l₂' ++ [m] ∧ l = l₁ ++ m' :: l₂' := by
  rcases List.eq_nil_or_concat' l₂ with h2 | ⟨L, b, h2⟩
  · subst h2
    have h3 := List.append_inj' h (by simp)
    exact Or.inl ⟨h3.1.symm, by simpa using h3.2.symm, rfl⟩
  · subst h2
    have h' : (l₁ ++ m' :: L) ++ [b] = l ++ [m] := by
      rw [List.append_assoc]; exact h.symm
    have h3 := List.append_inj' h' (by simp)
    have hb : b = m := by simpa using h3.2
    exact Or.inr ⟨L, by rw [hb], h3.1.symm⟩

/-- Appending a collect invocation for `i` makes `countedCond` hold. -/
lemma countedCond_concat_two {i : Int} {m : Moby} (l : List Moby)
    (hn : m.pvars.number = i) (hs : m.state = 2) : countedCond i (l ++ [m]) :=
  ⟨l, m, [], rfl, hn, hs, by simp⟩

/-- Appending a reset invocation for `i` makes `countedCond` fail. -/
lemma countedCond_concat_zero {i : Int} {m : Moby} (l : List Moby)
    (hn : m.pvars.number = i) (hs : m.state = 0) : ¬ countedCond i (l ++ [m]) := by
  rintro ⟨l₁, m', l₂, heq, hn', hs', htail⟩
  rcases append_singleton_decomp heq with ⟨-, rfl, rfl⟩ | ⟨l₂', rfl, -⟩
  · rw [hs] at hs'
    exact absurd hs' (by decide)
  · exact htail m (List.mem_append_right _ (by simp)) hn hs

/-- Appending an invocation that is not a reset or collect for `i` leaves
`countedCond` unchanged. -/
lemma countedCond_concat_other {i : Int} {m : Moby} (l : List Moby)
    (hother : m.pvars.number ≠ i ∨ (m.state ≠ 0 ∧ m.state ≠ 2)) :
    countedCond i (l ++ [m]) ↔ countedCond i l := by
  constructor
  · rintro ⟨l₁, m', l₂, heq, hn', hs', htail⟩
    rcases append_singleton_decomp heq with ⟨-, rfl, -⟩ | ⟨l₂', rfl, rfl⟩
    · rcases hother with hne | ⟨-, h2⟩
      · exact absurd hn' hne
      · exact absurd hs' h2
    · exact ⟨l₁, m', l₂', rfl, hn', hs',
        fun m'' hm'' => htail m'' (List.mem_append_left _ hm'')⟩
  · rintro ⟨l₁, m', l₂, rfl, hn', hs', htail⟩
    refine ⟨l₁, m', l₂ ++ [m], by simp, hn', hs', ?_⟩
    intro m'' hm'' hnum
    rcases List.mem_append.mp hm'' with h | h
    · exact htail m'' h hnum
    · have hm : m'' = m := by simpa using h
      subst hm
      rcases hother with hne | ⟨h0, -⟩
      · exact absurd hnum hne
      · exact h0

/-- A reset invocation for `i` zeroes the flag byte at `i`. -/
lemma step_flags_zero (m : Moby) (mem : HostMem) (i : Int)
    (hn : m.pvars.number = i) (hs : m.state = 0) :
    (hookLogic m mem).2.collected_bolt i = 0 := by
  simp [hookLogic, hs, hn]

/-- A collect invocation for `i` leaves the flag byte at `i` equal to 1,
provided the byte was 0 or 1 before (as it always is when the hook is the
only writer). -/
lemma step_flags_two (m : Moby) (mem : HostMem) (i : Int)
    (hn : m.pvars.number = i) (hs : m.state = 2)
    (hle : mem.collected_bolt i ≤ 1) :
    (hookLogic m mem).2.collected_bolt i = 1 := by
  by_cases hflag : mem.collected_bolt i = 0
  · simp [hookLogic, hs, hn, hflag]
  · have h1 : mem.collected_bolt i = 1 := by omega
    simp [hookLogic, hs, hn, hflag, h1]

/-- Any other invocation leaves the flag byte at `i` untouched. -/
lemma step_flags_other (m : Moby) (mem : HostMem) (i : Int)
    (hother : m.pvars.number ≠ i ∨ (m.state ≠ 0 ∧ m.state ≠ 2)) :
    (hookLogic m mem).2.collected_bolt i = mem.collected_bolt i := by
  rcases hother with hn | ⟨h0, h2⟩
  · unfold hookLogic
    dsimp only
    split_ifs <;> simp [Function.update_noteq (Ne.symm hn)]
  · simp [hookLogic, h0, h2]

/-- One invocation keeps every flag byte in {0, 1}. -/
lemma step_flags_le (m : Moby) (mem : HostMem)
    (h : ∀ j, mem.collected_bolt j ≤ 1) :
    ∀ j, (hookLogic m mem).2.collected_bolt j ≤ 1 := by
  intro j
  by_cases hn : m.pvars.number = j
  · by_cases h0 : m.state = 0
    · rw [step_flags_zero m mem j hn h0]; omega
    · by_cases h2 : m.state = 2
      · rw [step_flags_two m mem j hn h2 (h j)]
      · rw [step_flags_other m mem j (Or.inr ⟨h0, h2⟩)]; exact h j
  · rw [step_flags_other m mem j (Or.inl hn)]; exact h j

/-- A whole run keeps every flag byte in {0, 1}. -/
lemma runSeq_flags_le (l : List Moby) :
    ∀ mem : HostMem, (∀ j, mem.collected_bolt j ≤ 1) →
      ∀ j, (runSeq l mem).collected_bolt j ≤ 1 := by
  induction l with
  | nil => exact fun mem h j => h j
  | cons m l ih =>
    intro mem h j
    rw [runSeq_cons]
    exact ih _ (step_flags_le m mem h) j

/-- C7: starting from an all-zero flags table, after any sequence of
invocations the flag byte for index `i` equals 1 exactly when the sequence
contains a collect invocation (`state == 2`) for `i` with no later reset
invocation (`state == 0`) for `i`. -/
theorem flags_iff_uncleared_collect (c : Int) (l : List Moby) (i : Int) :
    (runSeq l
        { n_gold_bolts_collected := c, collected_bolt := fun _ => 0 }).collected_bolt i = 1 ↔
      countedCond i l := by
  induction l using List.reverseRecOn with
  | nil => simp [runSeq, countedCond]
  | append_singleton l m ih =>
    rw [runSeq_append_singleton]
    by_cases hn : m.pvars.number = i
    · by_cases hs0 : m.state = 0
      · rw [step_flags_zero m _ i hn hs0]
        constructor
        · intro h01; exact absurd h01 (by decide)
        · intro hc; exact absurd hc (countedCond_concat_zero l hn hs0)
      · by_cases hs2 : m.state = 2
        · rw [step_flags_two m _ i hn hs2
            (runSeq_flags_le l _ (fun j => by simp) i)]
          exact iff_of_true rfl (countedCond_concat_two l hn hs2)
        · rw [step_flags_other m _ i (Or.inr ⟨hs0, hs2⟩),
            countedCond_concat_other l (Or.inr ⟨hs0, hs2⟩)]
          exact ih
    · rw [step_flags_other m _ i (Or.inl hn),
        countedCond_concat_other l (Or.inl hn)]
      exact ih
